import Mathlib

/-!
Verification model of `bot.py` (Nostr → Bluesky cross-poster).

Texts are modelled as `List Char`. Python's regex scans are modelled as
executable left-to-right scanners (with an explicit fuel argument bounded by
the text length, so that every definition is a total computable function).
Network collaborators (relay metadata queries, HTTP image fetches, blob
uploads, the publish call) are modelled as oracles passed in explicitly;
each bot method then becomes a pure function of its inputs and oracles,
additionally returning the trace information (which lookups / fetches /
publish calls were made) that the claims talk about.

Modelling decisions, called out where they matter:
* Python's `\s` (on `str`) is modelled by its ASCII fragment
  `' ', '\t', '\n', '\r', '\x0b', '\x0c'`; the same set models `str.strip()`.
* Python `set(npubs)` iteration order is unspecified; it is modelled by
  `List.dedup` (one entry per distinct token).
* The float comparison `len(content)/(1024*1024) > 10` agrees with the
  integer comparison `len(content) > 10*1024*1024` for every integer length
  (the quotient differs from 10.0 by at least 2^-20, far above rounding
  error), so the size gate is modelled over `Nat`.
* PIL decoding (`Image.open` + `verify`) and HTTP status are oracle flags on
  the modelled response; `PublicKey.parse` failure is folded into the
  metadata oracle's failure outcome.
-/

namespace BlueStr

/-- ASCII fragment of Python's `\s` character class, also used by `str.strip()`. -/
def isSpaceCh (c : Char) : Bool :=
  c = ' ' || c = '\t' || c = '\n' || c = '\r' || c = '\x0b' || c = '\x0c'

/-- Python `content.strip()`: drop leading and trailing whitespace. -/
def pyStrip (s : List Char) : List Char :=
  ((s.dropWhile isSpaceCh).reverse.dropWhile isSpaceCh).reverse

/-- Boolean test that `pat` begins the list `s` (models `str.startswith` /
regex literal matching at the current position). -/
def beginsWith : List Char → List Char → Bool
  | [], _ => true
  | _ :: _, [] => false
  | p :: ps, c :: cs => p = c && beginsWith ps cs

/-- Proposition that `pat` begins `s`. -/
def Begins (pat s : List Char) : Prop := ∃ t, s = pat ++ t

/-- Proposition that `pat` occurs somewhere inside `s` (substring occurrence). -/
def Occurs (pat s : List Char) : Prop := ∃ a b, s = a ++ pat ++ b

/-- Boolean substring test matching `Occurs`. -/
def occursB (pat : List Char) : List Char → Bool
  | [] => pat.isEmpty
  | c :: cs => beginsWith pat (c :: cs) || occursB pat cs

/-! ### MediaExtractor: `extract_image_urls` (bot.py lines 135-149) -/

/-- The literal extension alternation of the image regex:
`(?:jpg|jpeg|png|gif|webp|JPG|JPEG|PNG|GIF|WEBP)` — note that only
all-lowercase and all-uppercase spellings appear. -/
def IMAGE_EXTS : List (List Char) :=
  ["jpg", "jpeg", "png", "gif", "webp", "JPG", "JPEG", "PNG", "GIF", "WEBP"].map String.data

/-- The trailing-punctuation character class `[.,;:!?)\]]` of bot.py. -/
def PUNCT_CHARS : List Char := ['.', ',', ';', ':', '!', '?', ')', ']']

/-- Does a prefix of length `m` of `run` end in `'.'` followed by one of the
image extensions, with a non-empty `[^\s]+` part before the dot?  This is the
condition for the regex `https?://[^\s]+\.(?:EXT)` to produce a match ending
`m` characters into the non-space run. -/
def extEndsAt (run : List Char) (m : Nat) : Bool :=
  IMAGE_EXTS.any fun ext =>
    decide (ext.length + 2 ≤ m) && beginsWith ('.' :: ext).reverse (run.take m).reverse

/-- Greedy backtracking of `[^\s]+\.(?:EXT)`: the match at this position ends
at the largest `m` within the non-space run for which `extEndsAt` holds. -/
def bestEnd (run : List Char) : Option Nat :=
  (List.range (run.length + 1)).reverse.find? fun m => extEndsAt run m

/-- Match `https?://` at the current position: returns the literal scheme
characters consumed and the remainder. -/
def schemeSplit (s : List Char) : Option (List Char × List Char) :=
  if s.take 8 = "https://".data then some ("https://".data, s.drop 8)
  else if s.take 7 = "http://".data then some ("http://".data, s.drop 7)
  else none

/-- Scanner for `re.findall(r'https?://[^\s]+\.(?:jpg|...|WEBP)', content)`: scan left to
right; on a match continue after its end, otherwise advance one character. -/
def findImageMatches : Nat → List Char → List (List Char)
  | 0, _ => []
  | _ + 1, [] => []
  | fuel + 1, c :: cs =>
    match schemeSplit (c :: cs) with
    | some (pre, rest) =>
      let run := rest.takeWhile fun d => !isSpaceCh d
      match bestEnd run with
      | some m => (pre ++ rest.take m) :: findImageMatches fuel (rest.drop m)
      | none => findImageMatches fuel cs
    | none => findImageMatches fuel cs

/-- Model of `re.sub(r'[.,;:!?)\]]+$', '', url)`: strip the maximal trailing run of
sentence punctuation. -/
def rstripPunct (u : List Char) : List Char :=
  (u.reverse.dropWhile fun c => PUNCT_CHARS.contains c).reverse

/-- Model of `NostrToBlueskyBot.extract_image_urls` (bot.py 135-149). -/
def extract_image_urls (content : List Char) : List (List Char) :=
  (findImageMatches (content.length + 1) content).map rstripPunct

/-! ### MediaExtractor: `remove_image_urls` (bot.py lines 151-167) -/

/-- One pass of `re.sub(re.escape(url) + r'[.,;:!?)\]]*', '', content)` for a
non-empty `url`: delete each occurrence of the url together with the maximal
punctuation run following it. -/
def removeUrlWithPunct (url : List Char) : Nat → List Char → List Char
  | 0, s => s
  | _ + 1, [] => []
  | fuel + 1, c :: cs =>
    if beginsWith url (c :: cs) then
      removeUrlWithPunct url fuel
        (((c :: cs).drop url.length).dropWhile fun d => PUNCT_CHARS.contains d)
    else
      c :: removeUrlWithPunct url fuel cs

/-- Model of `re.sub(re.escape(url) + r'[.,;:!?)\]]*', '', content)`.  For the
degenerate empty pattern Python's `re.sub` deletes every punctuation run and
keeps everything else, i.e. it filters out the punctuation characters. -/
def subUrlPunct (url s : List Char) : List Char :=
  if url = [] then s.filter fun c => !PUNCT_CHARS.contains c
  else removeUrlWithPunct url (s.length + 1) s

/-- Model of `re.sub(r' +', ' ', s)`: collapse runs of spaces to a single space. -/
def collapseSpaces : List Char → List Char
  | [] => []
  | [c] => [c]
  | c :: d :: rest =>
    if c = ' ' && d = ' ' then collapseSpaces (d :: rest)
    else c :: collapseSpaces (d :: rest)

/-- Model of `re.sub(r'\n{3,}', '\n\n', s)`: collapse runs of 3 or more newlines to
exactly two. -/
def collapseNl : List Char → List Char
  | [] => []
  | [c] => [c]
  | [c, d] => [c, d]
  | c :: d :: e :: rest =>
    if c = '\n' && d = '\n' && e = '\n' then collapseNl (d :: e :: rest)
    else c :: collapseNl (d :: e :: rest)

/-- Model of `NostrToBlueskyBot.remove_image_urls` (bot.py 151-167): per-url removal
passes, then whitespace normalisation, then `strip()`. -/
def remove_image_urls (content : List Char) (image_urls : List (List Char)) : List Char :=
  pyStrip (collapseNl (collapseSpaces
    (image_urls.foldl (fun acc url => subUrlPunct url acc) content)))

/-! ### MentionResolver (bot.py lines 169-255) -/

/-- The bech32 data alphabet of the npub regex
`nostr:(npub1[qpzry9x8gf2tvdw0s3jn54khce6mua7l]+)`. -/
def BECH32_CHARS : List Char := "qpzry9x8gf2tvdw0s3jn54khce6mua7l".data

/-- Scanner for `re.findall` over the npub mention regex; returns the captured
groups (the tokens without the `nostr:` scheme marker). -/
def extractNpubsF : Nat → List Char → List (List Char)
  | 0, _ => []
  | _ + 1, [] => []
  | fuel + 1, c :: cs =>
    if beginsWith "nostr:npub1".data (c :: cs) then
      let rest := (c :: cs).drop 11
      let run := rest.takeWhile fun d => BECH32_CHARS.contains d
      if run = [] then extractNpubsF fuel cs
      else ("npub1".data ++ run) :: extractNpubsF fuel (rest.drop run.length)
    else extractNpubsF fuel cs

/-- Model of `NostrToBlueskyBot.extract_npub_mentions` (bot.py 169-174). -/
def extract_npub_mentions (content : List Char) : List (List Char) :=
  extractNpubsF (content.length + 1) content

/-- Outcome of the relay round trip inside `fetch_profile_metadata`: the
`get_events_of` call can fail (exception / timeout, which also covers a
`PublicKey.parse` failure), return no events, or return a most-recent kind-0
event whose content either fails `json.loads` or parses to a JSON object with
optional `display_name` / `name` string fields. -/
inductive MetadataQueryResult where
  | queryFailed : MetadataQueryResult
  | noEvents : MetadataQueryResult
  | malformed : MetadataQueryResult
  | record (display_name : Option (List Char)) (name : Option (List Char)) : MetadataQueryResult
deriving DecidableEq

/-- Python `a or b` on optional strings: `a` unless it is absent or empty. -/
def pyOrStr (a b : Option (List Char)) : Option (List Char) :=
  match a with
  | some s => if s = [] then b else some s
  | none => b

/-- Model of `NostrToBlueskyBot.fetch_profile_metadata` (bot.py 176-221), as a function
of the query outcome: returns the `{'display_name': ..., 'name': ...}` pair on
success and `none` on every failure path. -/
def fetch_profile_metadata (q : MetadataQueryResult) : Option (List Char × List Char) :=
  match q with
  | .queryFailed => none
  | .noEvents => none
  | .malformed => none
  | .record dn nm =>
    match pyOrStr dn (pyOrStr nm none) with
    | none => none
    | some d => some (d, nm.getD [])

/-- Python `s.replace(old, new)` for an empty `old`: `new` interleaved at
every position. -/
def interleaveNew (new : List Char) : List Char → List Char
  | [] => new
  | c :: cs => new ++ c :: interleaveNew new cs

/-- Python `s.replace(old, new)` for non-empty `old`: replace the leftmost
occurrences, scanning left to right and continuing after each replacement. -/
def pyReplaceF (old new : List Char) : Nat → List Char → List Char
  | 0, s => s
  | _ + 1, [] => []
  | fuel + 1, c :: cs =>
    if beginsWith old (c :: cs) then
      new ++ pyReplaceF old new fuel ((c :: cs).drop old.length)
    else
      c :: pyReplaceF old new fuel cs

/-- Python `s.replace(old, new)`. -/
def pyReplace (old new s : List Char) : List Char :=
  if old = [] then interleaveNew new s else pyReplaceF old new (s.length + 1) s

/-- The replacement string used for one npub token: the resolved display name
when `fetch_profile_metadata` succeeded with a truthy `display_name`, else the
bare token (scheme marker stripped).  This is the branch at bot.py 243-253. -/
def resolveToken (lookup : List Char → MetadataQueryResult) (npub : List Char) : List Char :=
  match fetch_profile_metadata (lookup npub) with
  | some (d, _) => if d ≠ [] then d else npub
  | none => npub

/-- Model of `NostrToBlueskyBot.replace_npub_mentions` (bot.py 223-255), returning both
the rewritten content and the list of tokens for which a metadata lookup was
issued (one lookup per distinct token; `set(npubs)` iteration is modelled by
`List.dedup`). -/
def replaceMentionsTrace (lookup : List Char → MetadataQueryResult) (content : List Char) :
    List Char × List (List Char) :=
  let npubs := extract_npub_mentions content
  if npubs = [] then (content, [])
  else
    (npubs.dedup.foldl
       (fun acc npub => pyReplace ("nostr:".data ++ npub) (resolveToken lookup npub) acc)
       content,
     npubs.dedup)

/-- The rewritten content produced by `replace_npub_mentions`. -/
def replace_npub_mentions (lookup : List Char → MetadataQueryResult) (content : List Char) :
    List Char :=
  (replaceMentionsTrace lookup content).1

/-! ### MediaFetcher: `download_image` (bot.py lines 257-293) -/

/-- An HTTP response as far as `download_image` observes it: the
`raise_for_status` outcome, the `content-type` header, the payload bytes, and
whether PIL accepts the payload as a structurally valid image. -/
structure HttpResponse where
  statusOk : Bool
  contentType : List Char
  content : List Nat
  decodesAsImage : Bool
deriving DecidableEq

/-- Outcome of the `httpx` GET: a network-level exception or a response. -/
inductive FetchOutcome where
  | networkError : FetchOutcome
  | response (r : HttpResponse) : FetchOutcome
deriving DecidableEq

/-- The 10 MiB size limit (`max_size_mb = 10`). -/
def MAX_IMAGE_BYTES : Nat := 10 * 1024 * 1024

/-- Model of `NostrToBlueskyBot.download_image` (bot.py 257-293): status check, then
content-type check, then size check, then decodability check; any failure
yields `none`. -/
def download_image (fetch : FetchOutcome) : Option (List Nat × List Char) :=
  match fetch with
  | .networkError => none
  | .response r =>
    if !r.statusOk then none
    else if !beginsWith "image/".data r.contentType then none
    else if r.content.length > MAX_IMAGE_BYTES then none
    else if !r.decodesAsImage then none
    else some (r.content, r.contentType)

/-! ### `post_to_bluesky` (bot.py lines 295-351) -/

/-- Oracles for the Bluesky-side collaborators: the image HTTP fetch, the blob
upload (`upload_image_to_bluesky`, `none` on failure), and whether the final
`send_post` call succeeds. -/
structure BskyOracles where
  download : List Char → FetchOutcome
  upload : List Nat → Option Nat
  publishOk : Bool

/-- Accumulator of the image loop in `post_to_bluesky`: urls passed to
`download_image`, payloads passed to `upload_blob`, the
`successfully_processed_urls` list, and the attached blob references. -/
structure ImgAcc where
  fetched : List (List Char)
  uploaded : List (List Nat)
  attached : List (List Char)
  blobs : List Nat
deriving DecidableEq

/-- One iteration of `for url in image_urls[:4]` (bot.py 315-326). -/
def imgStep (o : BskyOracles) (acc : ImgAcc) (url : List Char) : ImgAcc :=
  match download_image (o.download url) with
  | none => { acc with fetched := acc.fetched ++ [url] }
  | some (bytes, _) =>
    match o.upload bytes with
    | none =>
      { acc with fetched := acc.fetched ++ [url], uploaded := acc.uploaded ++ [bytes] }
    | some blob =>
      { fetched := acc.fetched ++ [url], uploaded := acc.uploaded ++ [bytes],
        attached := acc.attached ++ [url], blobs := acc.blobs ++ [blob] }

/-- The image loop over the first four urls. -/
def processImages (o : BskyOracles) (urls : List (List Char)) : ImgAcc :=
  urls.foldl (imgStep o) ⟨[], [], [], []⟩

/-- Did the full fetch→validate→upload pipeline succeed for this url? -/
def candidateOk (o : BskyOracles) (url : List Char) : Bool :=
  match download_image (o.download url) with
  | none => false
  | some (bytes, _) => (o.upload bytes).isSome

/-- Trace of one `post_to_bluesky` call. -/
structure PostTrace where
  fetched : List (List Char)
  uploaded : List (List Nat)
  attachedUrls : List (List Char)
  images : List Nat
  publishedText : List Char
  result : Bool
deriving DecidableEq

/-- Model of `NostrToBlueskyBot.post_to_bluesky` (bot.py 295-351): process at most the
first four image urls, strip the successfully attached ones from the text
(only when at least one succeeded), and publish.  A `send_post` exception is
the `result := false` outcome. -/
def post_to_bluesky (o : BskyOracles) (content : List Char) (image_urls : List (List Char)) :
    PostTrace :=
  let acc := if image_urls ≠ [] then processImages o (image_urls.take 4) else ⟨[], [], [], []⟩
  let post_content := if acc.attached ≠ [] then remove_image_urls content acc.attached else content
  { fetched := acc.fetched, uploaded := acc.uploaded, attachedUrls := acc.attached,
    images := acc.blobs, publishedText := post_content, result := o.publishOk }

/-! ### EventPipeline: `handle_nostr_event` (bot.py lines 353-400) -/

/-- A Nostr event as `handle_nostr_event` observes it: hex id, creation time
in seconds, the event ids of its `e` tags, and the raw content. -/
structure NEvent where
  id : List Char
  created_at : Nat
  eTags : List (List Char)
  content : List Char
deriving DecidableEq

/-- Model of `NostrToBlueskyBot.is_reply` (bot.py 96-105): any referenced event id
makes the note a reply. -/
def is_reply (e : NEvent) : Bool := e.eTags.length > 0

/-- The process-lifetime dedup store: the `processed_events` set (modelled as
a list with membership) and the `start_time` cutoff. -/
structure BotState where
  processed : List (List Char)
  start_time : Nat
deriving DecidableEq

/-- Labels for the return paths of `handle_nostr_event` (the Python function
returns `None` from each; the labels name the exit taken). -/
inductive HandleResult where
  | skippedDuplicate | skippedTooOld | skippedReply | skippedEmpty
  | published | publishFailed
deriving DecidableEq

/-- All oracles one event's processing can consult. -/
structure Oracles where
  metadata : List Char → MetadataQueryResult
  download : List Char → FetchOutcome
  upload : List Nat → Option Nat
  publishOk : Bool

/-- The Bluesky-side slice of the oracles. -/
def bskyOf (o : Oracles) : BskyOracles := ⟨o.download, o.upload, o.publishOk⟩

/-- Result of handling one event: the exit taken, the updated store, and the
trace of metadata lookups, image fetches, and publish calls (texts passed to
`send_post`). -/
structure HandleOutcome where
  result : HandleResult
  state : BotState
  lookups : List (List Char)
  fetched : List (List Char)
  publishes : List (List Char)
deriving DecidableEq

/-- Outcome of an early-exit branch: no lookups, no fetches, no publish. -/
def skipOutcome (st : BotState) (res : HandleResult) : HandleOutcome :=
  { result := res, state := st, lookups := [], fetched := [], publishes := [] }

/-- Model of `NostrToBlueskyBot.handle_nostr_event` (bot.py 353-400). -/
def handle_nostr_event (o : Oracles) (st : BotState) (e : NEvent) : HandleOutcome :=
  if e.id ∈ st.processed then skipOutcome st .skippedDuplicate
  else if e.created_at < st.start_time then skipOutcome st .skippedTooOld
  else
    let st' : BotState := ⟨e.id :: st.processed, st.start_time⟩
    if is_reply e then skipOutcome st' .skippedReply
    else if pyStrip e.content = [] then skipOutcome st' .skippedEmpty
    else
      let rm := replaceMentionsTrace o.metadata e.content
      let image_urls := extract_image_urls rm.1
      let tr := post_to_bluesky (bskyOf o) rm.1 image_urls
      { result := if tr.result then .published else .publishFailed,
        state := st',
        lookups := rm.2,
        fetched := tr.fetched,
        publishes := [tr.publishedText] }

/-- Sequential processing of a list of events within one run (the single
cooperative worker of `handle_notifications`). -/
def runEvents (o : Oracles) : BotState → List NEvent → BotState
  | st, [] => st
  | st, e :: es => runEvents o (handle_nostr_event o st e).state es

/-! ## Basic lemmas about `Begins` and `Occurs` -/

theorem beginsWith_iff (p s : List Char) : beginsWith p s = true ↔ Begins p s := by
  induction p generalizing s with
  | nil => simp [beginsWith, Begins]
  | cons a ps ih =>
    cases s with
    | nil =>
      simp only [beginsWith, Begins, List.cons_append]
      constructor
      · intro h; cases h
      · rintro ⟨t, h⟩; cases h
    | cons c cs =>
      simp only [beginsWith, Bool.and_eq_true, decide_eq_true_eq, ih, Begins]
      constructor
      · rintro ⟨rfl, t, rfl⟩; exact ⟨t, rfl⟩
      · rintro ⟨t, h⟩
        rw [List.cons_append] at h
        obtain ⟨h1, h2⟩ := List.cons.inj h
        exact ⟨h1.symm, t, h2⟩

theorem headI_mem_of_ne_nil {l : List Char} (h : l ≠ []) : l.headI ∈ l := by
  cases l with
  | nil => exact absurd rfl h
  | cons c cs => simp [List.headI]

theorem headI_append_of_ne_nil {l : List Char} (x : List Char) (h : l ≠ []) :
    (l ++ x).headI = l.headI := by
  cases l with
  | nil => exact absurd rfl h
  | cons c cs => rfl

theorem begins_headI {w z : List Char} (h : Begins w z) (hw : w ≠ []) : z.headI = w.headI := by
  obtain ⟨t, rfl⟩ := h
  exact headI_append_of_ne_nil t hw

theorem begins_ne_nil {w z : List Char} (h : Begins w z) (hw : w ≠ []) : z ≠ [] := by
  obtain ⟨t, rfl⟩ := h
  cases w with
  | nil => exact absurd rfl hw
  | cons c cs => simp

theorem begins_tail {w z : List Char} {c : Char} (h : Begins (c :: w) (c :: z)) : Begins w z := by
  obtain ⟨t, ht⟩ := h
  rw [List.cons_append] at ht
  exact ⟨t, (List.cons.inj ht).2⟩

theorem occurs_nil_iff {p : List Char} : Occurs p [] ↔ p = [] := by
  constructor
  · rintro ⟨a, b, h⟩
    rcases List.append_eq_nil.mp h.symm with ⟨hap, -⟩
    exact (List.append_eq_nil.mp hap).2
  · rintro rfl
    exact ⟨[], [], rfl⟩

theorem occurs_cons_iff {p : List Char} {c : Char} {t : List Char} :
    Occurs p (c :: t) ↔ Begins p (c :: t) ∨ Occurs p t := by
  constructor
  · rintro ⟨a, b, h⟩
    cases a with
    | nil => exact Or.inl ⟨b, by simpa using h⟩
    | cons a0 as =>
      rw [List.cons_append, List.cons_append] at h
      obtain ⟨-, h2⟩ := List.cons.inj h
      exact Or.inr ⟨as, b, by simpa using h2⟩
  · rintro (⟨u, h⟩ | ⟨a, b, h⟩)
    · exact ⟨[], u, by simpa using h⟩
    · exact ⟨c :: a, b, by rw [h]; rfl⟩

theorem occursB_iff (p s : List Char) : occursB p s = true ↔ Occurs p s := by
  induction s with
  | nil =>
    simp only [occursB, List.isEmpty_iff, occurs_nil_iff]
  | cons c cs ih =>
    simp only [occursB, Bool.or_eq_true, beginsWith_iff, ih, occurs_cons_iff]

theorem occurs_of_begins {p s : List Char} (h : Begins p s) : Occurs p s := by
  obtain ⟨t, rfl⟩ := h
  exact ⟨[], t, rfl⟩

theorem occurs_refl (p : List Char) : Occurs p p := ⟨[], [], by simp⟩

theorem occurs_append_right {p t : List Char} (w : List Char) (h : Occurs p t) :
    Occurs p (w ++ t) := by
  obtain ⟨a, b, rfl⟩ := h
  exact ⟨w ++ a, b, by simp⟩

theorem occurs_append_left {p t : List Char} (w : List Char) (h : Occurs p t) :
    Occurs p (t ++ w) := by
  obtain ⟨a, b, rfl⟩ := h
  exact ⟨a, b ++ w, by simp⟩

/-- An occurrence inside `r ++ X` lies in `r`, lies in `X`, or straddles the
boundary, splitting `old` into a non-empty suffix of `r` followed by a
non-empty beginning of `X`. -/
theorem occurs_append_split {old r X : List Char} (h : Occurs old (r ++ X)) :
    Occurs old r ∨ Occurs old X ∨
      ∃ u v, old = u ++ v ∧ u ≠ [] ∧ v ≠ [] ∧ (∃ w, r = w ++ u) ∧ Begins v X := by
  obtain ⟨a, b, hab⟩ := h
  have hlen : (a ++ old).length = a.length + old.length := List.length_append a old
  by_cases h1 : a.length + old.length ≤ r.length
  · left
    have e1 : (r ++ X).take (a.length + old.length) = r.take (a.length + old.length) := by
      rw [List.take_append_eq_append_take, Nat.sub_eq_zero_of_le h1, List.take_zero,
        List.append_nil]
    have e2 : (a ++ old ++ b).take (a.length + old.length) = a ++ old := by
      rw [show a.length + old.length = (a ++ old).length from hlen.symm, List.take_left]
    have hta : r.take (a.length + old.length) = a ++ old :=
      e1.symm.trans ((congrArg (List.take (a.length + old.length)) hab).trans e2)
    refine ⟨a, r.drop (a.length + old.length), ?_⟩
    calc r = r.take (a.length + old.length) ++ r.drop (a.length + old.length) :=
          (List.take_append_drop _ _).symm
      _ = a ++ old ++ r.drop (a.length + old.length) := by rw [hta]
  · by_cases h2 : r.length ≤ a.length
    · right; left
      have hz : r.length - (a ++ old).length = 0 := by omega
      have e1 : (r ++ X).drop r.length = X := List.drop_left r X
      have e2 : (a ++ old ++ b).drop r.length = a.drop r.length ++ old ++ b := by
        rw [List.drop_append_eq_append_drop, List.drop_append_eq_append_drop,
          Nat.sub_eq_zero_of_le h2, List.drop_zero, hz, List.drop_zero]
      exact ⟨a.drop r.length, b,
        e1.symm.trans ((congrArg (List.drop r.length) hab).trans e2)⟩
    · right; right
      have hp : a.length < r.length := by omega
      have hk2 : r.length - a.length < old.length := by omega
      have hz : r.length - (a ++ old).length = 0 := by omega
      have e1 : (r ++ X).take r.length = r := List.take_left r X
      have e2 : (a ++ old ++ b).take r.length = a ++ old.take (r.length - a.length) := by
        rw [List.take_append_eq_append_take, hz, List.take_zero, List.append_nil,
          List.take_append_eq_append_take, List.take_of_length_le (le_of_lt hp)]
      have hr : r = a ++ old.take (r.length - a.length) :=
        e1.symm.trans ((congrArg (List.take r.length) hab).trans e2)
      have e3 : (r ++ X).drop r.length = X := List.drop_left r X
      have e4 : (a ++ old ++ b).drop r.length = old.drop (r.length - a.length) ++ b := by
        rw [List.drop_append_eq_append_drop, List.drop_append_eq_append_drop,
          List.drop_eq_nil_of_le (le_of_lt hp), List.nil_append, hz, List.drop_zero]
      have hX : X = old.drop (r.length - a.length) ++ b :=
        e3.symm.trans ((congrArg (List.drop r.length) hab).trans e4)
      refine ⟨old.take (r.length - a.length), old.drop (r.length - a.length),
        (List.take_append_drop _ old).symm, ?_, ?_, ⟨a, hr⟩, ⟨b, hX⟩⟩
      · intro hnil
        have := congrArg List.length hnil
        simp only [List.length_take, List.length_nil] at this
        omega
      · intro hnil
        have := congrArg List.length hnil
        simp only [List.length_drop, List.length_nil] at this
        omega

/-! ## Lemmas about `pyReplace` -/

theorem begins_nil {w : List Char} (h : Begins w []) : w = [] := by
  obtain ⟨t, ht⟩ := h
  exact (List.append_eq_nil.mp ht.symm).1

theorem pyReplaceF_cons_pos {old r : List Char} {fuel : Nat} {c : Char} {cs : List Char}
    (hb : beginsWith old (c :: cs) = true) :
    pyReplaceF old r (fuel + 1) (c :: cs)
      = r ++ pyReplaceF old r fuel ((c :: cs).drop old.length) := by
  simp only [pyReplaceF, hb, if_pos]

theorem pyReplaceF_cons_neg {old r : List Char} {fuel : Nat} {c : Char} {cs : List Char}
    (hb : beginsWith old (c :: cs) = false) :
    pyReplaceF old r (fuel + 1) (c :: cs) = c :: pyReplaceF old r fuel cs := by
  simp only [pyReplaceF, hb, Bool.false_eq_true, if_false]

/-- A non-empty beginning of `pyReplaceF old r fuel s` that is a slice of `old`
(it begins `old.drop k` for some `k`) was already a beginning of `s`, provided
`r` is non-empty and its first character does not occur in `old`. -/
theorem pyReplaceF_begins_slice (old r : List Char) (hr : r ≠ []) (hhead : r.headI ∉ old) :
    ∀ fuel s k w, s.length < fuel → w ≠ [] → Begins w (old.drop k) →
      Begins w (pyReplaceF old r fuel s) → Begins w s := by
  intro fuel
  induction fuel with
  | zero => intro s k w hlen; omega
  | succ fuel ih =>
    intro s k w hlen hw hwk hwF
    have hwmem : w.headI ∈ old := by
      have hdk : old.drop k ≠ [] := by
        obtain ⟨t, ht⟩ := hwk
        rw [ht]
        exact begins_ne_nil ⟨t, rfl⟩ hw
      have h2 := begins_headI hwk hw
      have h3 := headI_mem_of_ne_nil hdk
      rw [h2] at h3
      exact List.drop_subset k old h3
    cases s with
    | nil =>
      exact absurd (begins_nil hwF) hw
    | cons c cs =>
      have hlen' : cs.length < fuel := by
        simp only [List.length_cons] at hlen
        omega
      by_cases hb : beginsWith old (c :: cs) = true
      · rw [pyReplaceF_cons_pos hb] at hwF
        have h4 := begins_headI hwF hw
        rw [headI_append_of_ne_nil _ hr] at h4
        rw [h4] at hhead
        exact absurd hwmem hhead
      · rw [pyReplaceF_cons_neg (Bool.not_eq_true _ ▸ hb)] at hwF
        cases w with
        | nil => exact absurd rfl hw
        | cons w0 ws =>
          obtain ⟨t, ht⟩ := hwF
          rw [List.cons_append] at ht
          obtain ⟨hc, hcs⟩ := List.cons.inj ht
          by_cases hws : ws = []
          · subst hws
            exact ⟨cs, by rw [hc, List.singleton_append]⟩
          · have hwk' : Begins ws (old.drop (k + 1)) := by
              obtain ⟨t', ht'⟩ := hwk
              refine ⟨t', ?_⟩
              have : (old.drop k).drop 1 = ws ++ t' := by
                rw [ht']
                simp
              rw [← this, List.drop_drop]
            have hws' : Begins ws cs :=
              ih cs (k + 1) ws hlen' hws hwk' ⟨t, hcs⟩
            obtain ⟨t'', ht''⟩ := hws'
            exact ⟨t'', by rw [hc, ht'', List.cons_append]⟩

/-- Boolean form of the side condition "no proper non-empty suffix of `r`
begins `old`". -/
def suffixSafe (r old : List Char) : Bool :=
  (List.range r.length).all fun i => decide (i = 0) || !beginsWith (r.drop i) old

theorem suffixSafe_spec {r old : List Char} (h : suffixSafe r old = true) :
    ∀ i, 0 < i → i < r.length → ¬ Begins (r.drop i) old := by
  intro i hpos hlt hb
  have := List.all_eq_true.mp h i (List.mem_range.mpr hlt)
  rcases Bool.or_eq_true _ _ |>.mp this with h1 | h1
  · exact absurd (of_decide_eq_true h1) (by omega)
  · rw [Bool.not_eq_true'] at h1
    rw [← beginsWith_iff] at hb
    rw [h1] at hb
    cases hb

/-- Core no-reintroduction property of Python's `str.replace`: if the
replacement string `r` is non-empty, its first character does not occur in the
pattern `old`, `old` does not occur inside `r`, and no proper non-empty suffix
of `r` begins `old`, then the result of `s.replace(old, r)` contains no
occurrence of `old` at all. -/
theorem pyReplaceF_no_occurs (old r : List Char) (hold : old ≠ []) (hr : r ≠ [])
    (hhead : r.headI ∉ old) (hro : ¬ Occurs old r)
    (hsuf : ∀ i, 0 < i → i < r.length → ¬ Begins (r.drop i) old) :
    ∀ fuel s, s.length < fuel → ¬ Occurs old (pyReplaceF old r fuel s) := by
  intro fuel
  induction fuel with
  | zero => intro s h; omega
  | succ fuel ih =>
    intro s hlen hocc
    cases s with
    | nil => exact hold (occurs_nil_iff.mp hocc)
    | cons c cs =>
      have holdlen : 0 < old.length := List.length_pos.mpr hold
      have hlen' : cs.length < fuel := by
        simp only [List.length_cons] at hlen
        omega
      by_cases hb : beginsWith old (c :: cs) = true
      · rw [pyReplaceF_cons_pos hb] at hocc
        rcases occurs_append_split hocc with h | h | ⟨u, v, huv, hu, hv, ⟨w, hw⟩, hvb⟩
        · exact hro h
        · have hdl : ((c :: cs).drop old.length).length < fuel := by
            simp only [List.length_drop, List.length_cons]
            omega
          exact ih _ hdl h
        · by_cases hwnil : w = []
          · subst hwnil
            rw [List.nil_append] at hw
            have h1 : old.headI = r.headI := by
              rw [huv, ← hw]
              exact headI_append_of_ne_nil v hr
            have h2 := headI_mem_of_ne_nil hold
            rw [h1] at h2
            exact absurd h2 hhead
          · have hlt : w.length < r.length := by
              have := congrArg List.length hw
              simp only [List.length_append] at this
              have hupos : 0 < u.length := List.length_pos.mpr hu
              omega
            have hdrop : r.drop w.length = u := by
              rw [hw]
              exact List.drop_left w u
            exact hsuf w.length (List.length_pos.mpr hwnil) hlt
              (hdrop ▸ ⟨v, huv⟩)
      · rw [pyReplaceF_cons_neg (Bool.not_eq_true _ ▸ hb)] at hocc
        rcases occurs_cons_iff.mp hocc with h | h
        · cases old with
          | nil => exact hold rfl
          | cons o0 os =>
            obtain ⟨t, ht⟩ := h
            rw [List.cons_append] at ht
            obtain ⟨hc, hcs⟩ := List.cons.inj ht
            by_cases hos : os = []
            · subst hos
              subst hc
              simp [beginsWith] at hb
            · have hsl : Begins os cs :=
                pyReplaceF_begins_slice (o0 :: os) r hr hhead fuel cs 1 os hlen' hos
                  ⟨[], by simp⟩ ⟨t, hcs⟩
              obtain ⟨t', ht'⟩ := hsl
              have : beginsWith (o0 :: os) (c :: cs) = true := by
                rw [beginsWith_iff]
                exact ⟨t', by rw [hc, ht', List.cons_append]⟩
              exact hb this
        · exact ih cs hlen' h

/-- Version of the no-reintroduction property for `pyReplace`, with the side
conditions in decidable form. -/
theorem pyReplace_no_occurs (old r s : List Char) (hold : old ≠ []) (hr : r ≠ [])
    (hhead : r.headI ∉ old) (hro : occursB old r = false)
    (hsuf : suffixSafe r old = true) :
    ¬ Occurs old (pyReplace old r s) := by
  rw [pyReplace, if_neg hold]
  have hro' : ¬ Occurs old r := by
    rw [← occursB_iff, hro]
    exact fun h => by cases h
  exact pyReplaceF_no_occurs old r hold hr hhead hro' (suffixSafe_spec hsuf)
    (s.length + 1) s (by omega)

/-! ## Lemmas about mention resolution -/

theorem replaceMentionsTrace_snd (lookup : List Char → MetadataQueryResult)
    (content : List Char) :
    (replaceMentionsTrace lookup content).2 = (extract_npub_mentions content).dedup := by
  rw [replaceMentionsTrace]
  by_cases h : extract_npub_mentions content = []
  · simp only [h, if_pos, List.dedup_nil]
  · simp only [h, if_neg, ite_false]

theorem replace_single_token (lookup : List Char → MetadataQueryResult)
    (content t : List Char) (h : (extract_npub_mentions content).dedup = [t]) :
    replace_npub_mentions lookup content
      = pyReplace ("nostr:".data ++ t) (resolveToken lookup t) content := by
  have hne : extract_npub_mentions content ≠ [] := by
    intro h0
    rw [h0, List.dedup_nil] at h
    cases h
  rw [replace_npub_mentions, replaceMentionsTrace]
  simp only [hne, ite_false, h, List.foldl_cons, List.foldl_nil]

/-! ## Lemmas about the image loop of `post_to_bluesky` -/

/-- The payload `download_image` produces for a url (if any). -/
def bytesOf (o : BskyOracles) (url : List Char) : Option (List Nat) :=
  (download_image (o.download url)).map Prod.fst

/-- The blob reference the fetch→upload pipeline produces for a url (if any). -/
def blobOf (o : BskyOracles) (url : List Char) : Option Nat :=
  (download_image (o.download url)).bind fun bc => o.upload bc.1

theorem foldl_imgStep (o : BskyOracles) (urls : List (List Char)) :
    ∀ acc : ImgAcc,
      urls.foldl (imgStep o) acc =
        ⟨acc.fetched ++ urls, acc.uploaded ++ urls.filterMap (bytesOf o),
         acc.attached ++ (urls.filter fun u => candidateOk o u),
         acc.blobs ++ urls.filterMap (blobOf o)⟩ := by
  induction urls with
  | nil => intro acc; simp
  | cons u us ih =>
    intro acc
    rw [List.foldl_cons, ih]
    cases hd : download_image (o.download u) with
    | none =>
      simp only [imgStep, hd, List.filterMap_cons, List.filter_cons, bytesOf, blobOf,
        candidateOk, Option.map_none', Option.bind, Option.none_bind]
      simp [hd, candidateOk, bytesOf, blobOf, List.append_assoc]
    | some bc =>
      obtain ⟨bytes, mime⟩ := bc
      cases hu : o.upload bytes with
      | none =>
        simp only [imgStep, hd, hu]
        simp [hd, hu, candidateOk, bytesOf, blobOf, List.filter_cons, List.filterMap_cons,
          List.append_assoc]
      | some blob =>
        simp only [imgStep, hd, hu]
        simp [hd, hu, candidateOk, bytesOf, blobOf, List.filter_cons, List.filterMap_cons,
          List.append_assoc]

theorem processImages_eq (o : BskyOracles) (urls : List (List Char)) :
    processImages o urls =
      ⟨urls, urls.filterMap (bytesOf o), urls.filter fun u => candidateOk o u,
       urls.filterMap (blobOf o)⟩ := by
  rw [processImages, foldl_imgStep]
  simp

theorem post_fetched (o : BskyOracles) (content : List Char) (urls : List (List Char)) :
    (post_to_bluesky o content urls).fetched = urls.take 4 := by
  rw [post_to_bluesky]
  by_cases h : urls = []
  · subst h; simp
  · simp only [h, ne_eq, not_false_iff, ite_true, processImages_eq]

theorem post_attached (o : BskyOracles) (content : List Char) (urls : List (List Char)) :
    (post_to_bluesky o content urls).attachedUrls
      = (urls.take 4).filter fun u => candidateOk o u := by
  rw [post_to_bluesky]
  by_cases h : urls = []
  · subst h; simp
  · simp only [h, ne_eq, not_false_iff, ite_true, processImages_eq]

theorem post_images (o : BskyOracles) (content : List Char) (urls : List (List Char)) :
    (post_to_bluesky o content urls).images = (urls.take 4).filterMap (blobOf o) := by
  rw [post_to_bluesky]
  by_cases h : urls = []
  · subst h; simp
  · simp only [h, ne_eq, not_false_iff, ite_true, processImages_eq]

theorem post_result (o : BskyOracles) (content : List Char) (urls : List (List Char)) :
    (post_to_bluesky o content urls).result = o.publishOk := by
  rw [post_to_bluesky]

theorem post_text (o : BskyOracles) (content : List Char) (urls : List (List Char)) :
    (post_to_bluesky o content urls).publishedText
      = if ((urls.take 4).filter fun u => candidateOk o u) ≠ []
        then remove_image_urls content ((urls.take 4).filter fun u => candidateOk o u)
        else content := by
  rw [post_to_bluesky]
  by_cases h : urls = []
  · subst h; simp
  · simp only [h, ne_eq, not_false_iff, ite_true, processImages_eq]

/-! ## Lemmas about `handle_nostr_event` and `runEvents` -/

theorem handle_dup (o : Oracles) (st : BotState) (e : NEvent) (h : e.id ∈ st.processed) :
    handle_nostr_event o st e = skipOutcome st .skippedDuplicate := by
  rw [handle_nostr_event, if_pos h]

theorem handle_tooOld (o : Oracles) (st : BotState) (e : NEvent)
    (h1 : e.id ∉ st.processed) (h2 : e.created_at < st.start_time) :
    handle_nostr_event o st e = skipOutcome st .skippedTooOld := by
  rw [handle_nostr_event, if_neg h1, if_pos h2]

theorem handle_state_cases (o : Oracles) (st : BotState) (e : NEvent) :
    (handle_nostr_event o st e).state = st ∨
    (handle_nostr_event o st e).state = ⟨e.id :: st.processed, st.start_time⟩ := by
  rw [handle_nostr_event]
  by_cases h1 : e.id ∈ st.processed
  · rw [if_pos h1]; exact Or.inl rfl
  · rw [if_neg h1]
    by_cases h2 : e.created_at < st.start_time
    · rw [if_pos h2]; exact Or.inl rfl
    · rw [if_neg h2]
      by_cases h3 : is_reply e = true
      · rw [if_pos h3]; exact Or.inr rfl
      · rw [if_neg h3]
        by_cases h4 : pyStrip e.content = []
        · rw [if_pos h4]; exact Or.inr rfl
        · rw [if_neg h4]; exact Or.inr rfl

theorem handle_start_time (o : Oracles) (st : BotState) (e : NEvent) :
    (handle_nostr_event o st e).state.start_time = st.start_time := by
  rcases handle_state_cases o st e with h | h <;> rw [h]

theorem handle_processed_mono (o : Oracles) (st : BotState) (e : NEvent) {x : List Char}
    (hx : x ∈ st.processed) : x ∈ (handle_nostr_event o st e).state.processed := by
  rcases handle_state_cases o st e with h | h <;> rw [h]
  · exact hx
  · exact List.mem_cons_of_mem _ hx

theorem handle_marks (o : Oracles) (st : BotState) (e : NEvent)
    (h1 : e.id ∉ st.processed) (h2 : ¬ e.created_at < st.start_time) :
    (handle_nostr_event o st e).state = ⟨e.id :: st.processed, st.start_time⟩ := by
  rw [handle_nostr_event, if_neg h1, if_neg h2]
  by_cases h3 : is_reply e = true
  · rw [if_pos h3]; rfl
  · rw [if_neg h3]
    by_cases h4 : pyStrip e.content = []
    · rw [if_pos h4]; rfl
    · rw [if_neg h4]

theorem handle_mem_processed (o : Oracles) (st : BotState) (e : NEvent) {x : List Char}
    (hx : x ∈ (handle_nostr_event o st e).state.processed) :
    x ∈ st.processed ∨ (x = e.id ∧ st.start_time ≤ e.created_at) := by
  by_cases h1 : e.id ∈ st.processed
  · rw [handle_dup o st e h1] at hx
    exact Or.inl hx
  · by_cases h2 : e.created_at < st.start_time
    · rw [handle_tooOld o st e h1 h2] at hx
      exact Or.inl hx
    · rw [handle_marks o st e h1 h2] at hx
      rcases List.mem_cons.mp hx with h | h
      · exact Or.inr ⟨h, Nat.le_of_not_lt h2⟩
      · exact Or.inl h

theorem runEvents_start_time (o : Oracles) (evs : List NEvent) :
    ∀ st : BotState, (runEvents o st evs).start_time = st.start_time := by
  induction evs with
  | nil => intro st; rfl
  | cons e es ih =>
    intro st
    rw [runEvents, ih, handle_start_time]

theorem runEvents_mono (o : Oracles) (evs : List NEvent) :
    ∀ (st : BotState) (x : List Char), x ∈ st.processed →
      x ∈ (runEvents o st evs).processed := by
  induction evs with
  | nil => intro st x hx; exact hx
  | cons e es ih =>
    intro st x hx
    exact ih _ x (handle_processed_mono o st e hx)

theorem runEvents_mem (o : Oracles) (evs : List NEvent) :
    ∀ (st : BotState) (x : List Char), x ∈ (runEvents o st evs).processed →
      x ∈ st.processed ∨ ∃ e, e ∈ evs ∧ e.id = x ∧ st.start_time ≤ e.created_at := by
  induction evs with
  | nil => intro st x hx; exact Or.inl hx
  | cons e es ih =>
    intro st x hx
    rcases ih _ x hx with h | ⟨e', he', hid, hts⟩
    · rcases handle_mem_processed o st e h with h' | ⟨h1, h2⟩
      · exact Or.inl h'
      · exact Or.inr ⟨e, List.mem_cons_self e es, h1.symm, h2⟩
    · rw [handle_start_time] at hts
      exact Or.inr ⟨e', List.mem_cons_of_mem e he', hid, hts⟩

theorem handle_go (o : Oracles) (st : BotState) (e : NEvent)
    (h1 : e.id ∉ st.processed) (h2 : ¬ e.created_at < st.start_time)
    (h3 : is_reply e = false) (h4 : pyStrip e.content ≠ []) :
    handle_nostr_event o st e =
      { result := if (post_to_bluesky (bskyOf o) (replaceMentionsTrace o.metadata e.content).1
              (extract_image_urls (replaceMentionsTrace o.metadata e.content).1)).result
          then .published else .publishFailed,
        state := ⟨e.id :: st.processed, st.start_time⟩,
        lookups := (replaceMentionsTrace o.metadata e.content).2,
        fetched := (post_to_bluesky (bskyOf o) (replaceMentionsTrace o.metadata e.content).1
            (extract_image_urls (replaceMentionsTrace o.metadata e.content).1)).fetched,
        publishes := [(post_to_bluesky (bskyOf o) (replaceMentionsTrace o.metadata e.content).1
            (extract_image_urls (replaceMentionsTrace o.metadata e.content).1)).publishedText] }
      := by
  rw [handle_nostr_event, if_neg h1, if_neg h2, if_neg (by rw [h3]; simp), if_neg h4]

/-! ## Soundness of the image-url extraction -/

/-- Structural characterisation of a string the image regex can produce: a
scheme, a non-empty space-free body, a dot, and one of the ten literal
extension spellings. -/
def GoodImageUrl (u : List Char) : Prop :=
  ∃ scheme body ext, (scheme = "http://".data ∨ scheme = "https://".data) ∧
    ext ∈ IMAGE_EXTS ∧ body ≠ [] ∧ u = scheme ++ body ++ '.' :: ext ∧
    ∀ c ∈ u, isSpaceCh c = false

theorem ends_of_beginsRev {pat s : List Char}
    (h : beginsWith pat.reverse s.reverse = true) : ∃ w, s = w ++ pat := by
  obtain ⟨t, ht⟩ := (beginsWith_iff _ _).mp h
  refine ⟨t.reverse, ?_⟩
  have h2 := congrArg List.reverse ht
  simpa using h2

theorem take_le_takeWhile (p : Char → Bool) (l : List Char) (m : Nat)
    (hm : m ≤ (l.takeWhile p).length) : l.take m = (l.takeWhile p).take m := by
  conv_lhs => rw [← List.takeWhile_append_dropWhile (p := p) (l := l)]
  rw [List.take_append_eq_append_take, Nat.sub_eq_zero_of_le hm, List.take_zero,
    List.append_nil]

theorem schemeSplit_eq {s pre rest : List Char} (h : schemeSplit s = some (pre, rest)) :
    (pre = "http://".data ∨ pre = "https://".data) ∧ s = pre ++ rest := by
  rw [schemeSplit] at h
  by_cases h8 : s.take 8 = "https://".data
  · rw [if_pos h8] at h
    obtain ⟨h1, h2⟩ := Prod.mk.inj (Option.some.inj h)
    subst h1
    subst h2
    refine ⟨Or.inr rfl, ?_⟩
    conv_lhs => rw [← List.take_append_drop 8 s]
    rw [h8]
  · rw [if_neg h8] at h
    by_cases h7 : s.take 7 = "http://".data
    · rw [if_pos h7] at h
      obtain ⟨h1, h2⟩ := Prod.mk.inj (Option.some.inj h)
      subst h1
      subst h2
      refine ⟨Or.inl rfl, ?_⟩
      conv_lhs => rw [← List.take_append_drop 7 s]
      rw [h7]
    · rw [if_neg h7] at h
      cases h

theorem occurs_cons_of {p : List Char} {c : Char} {t : List Char} (h : Occurs p t) :
    Occurs p (c :: t) :=
  occurs_cons_iff.mpr (Or.inr h)

theorem extEndsAt_spec {run : List Char} {m : Nat} (h : extEndsAt run m = true) :
    ∃ ext ∈ IMAGE_EXTS, ext.length + 2 ≤ m ∧ ∃ w, run.take m = w ++ '.' :: ext := by
  obtain ⟨ext, hmem, hx⟩ := List.any_eq_true.mp h
  rw [Bool.and_eq_true, decide_eq_true_eq] at hx
  obtain ⟨hle, hbw⟩ := hx
  exact ⟨ext, hmem, hle, ends_of_beginsRev hbw⟩

theorem findImageMatches_sound :
    ∀ (fuel : Nat) (s u : List Char), u ∈ findImageMatches fuel s →
      GoodImageUrl u ∧ Occurs u s := by
  intro fuel
  induction fuel with
  | zero => intro s u h; cases h
  | succ fuel ih =>
    intro s u hu
    cases s with
    | nil => cases hu
    | cons c cs =>
      cases hss : schemeSplit (c :: cs) with
      | none =>
        rw [findImageMatches, hss] at hu
        obtain ⟨good, occ⟩ := ih cs u hu
        exact ⟨good, occurs_cons_of occ⟩
      | some pr =>
        obtain ⟨pre, rest⟩ := pr
        rw [findImageMatches, hss] at hu
        simp only at hu
        obtain ⟨hpre, hsplit⟩ := schemeSplit_eq hss
        cases hbe : bestEnd (rest.takeWhile fun d => !isSpaceCh d) with
        | none =>
          rw [hbe] at hu
          obtain ⟨good, occ⟩ := ih cs u hu
          exact ⟨good, occurs_cons_of occ⟩
        | some m =>
          rw [hbe] at hu
          rcases List.mem_cons.mp hu with rfl | hu'
          · -- the match produced at this position
            have hpred := List.find?_some hbe
            have hmem := List.mem_of_find?_eq_some hbe
            rw [List.mem_reverse, List.mem_range] at hmem
            have hmle : m ≤ (rest.takeWhile fun d => !isSpaceCh d).length := by omega
            obtain ⟨ext, hext, hle, w, hw⟩ := extEndsAt_spec hpred
            have htake : rest.take m = (rest.takeWhile fun d => !isSpaceCh d).take m :=
              take_le_takeWhile _ rest m hmle
            have hwlen : w ≠ [] := by
              intro hnil
              have hlen := congrArg List.length hw
              rw [hnil, List.nil_append, List.length_take, List.length_cons,
                min_eq_left hmle] at hlen
              omega
            have hurl : pre ++ rest.take m = pre ++ w ++ '.' :: ext := by
              rw [htake, hw, List.append_assoc]
            refine ⟨⟨pre, w, ext, hpre, hext, hwlen, hurl, ?_⟩, ?_⟩
            · -- no whitespace in the match
              intro d hd
              rcases List.mem_append.mp hd with hd | hd
              · have hhtp : ∀ x ∈ "http://".data, isSpaceCh x = false := by decide
                have hhtps : ∀ x ∈ "https://".data, isSpaceCh x = false := by decide
                rcases hpre with rfl | rfl
                · exact hhtp d hd
                · exact hhtps d hd
              · have hd2 : d ∈ rest.takeWhile fun x => !isSpaceCh x := by
                  rw [htake] at hd
                  exact List.take_subset m _ hd
                have := List.mem_takeWhile_imp hd2
                rwa [Bool.not_eq_true'] at this
            · -- it occurs in the scanned text
              refine ⟨[], rest.drop m, ?_⟩
              rw [List.nil_append, hsplit, List.append_assoc, List.take_append_drop]
          · obtain ⟨good, occ⟩ := ih (rest.drop m) u hu'
            refine ⟨good, ?_⟩
            have h2 := occurs_append_right (pre ++ rest.take m) occ
            rw [List.append_assoc, List.take_append_drop, ← hsplit] at h2
            exact h2

theorem ext_last_not_punct {ext : List Char} (h : ext ∈ IMAGE_EXTS) :
    ∃ e0 lc, ext = e0 ++ [lc] ∧ PUNCT_CHARS.contains lc = false := by
  simp only [IMAGE_EXTS, List.map_cons, List.map_nil, List.mem_cons,
    List.not_mem_nil, or_false] at h
  rcases h with rfl | rfl | rfl | rfl | rfl | rfl | rfl | rfl | rfl | rfl
  · exact ⟨['j', 'p'], 'g', rfl, rfl⟩
  · exact ⟨['j', 'p', 'e'], 'g', rfl, rfl⟩
  · exact ⟨['p', 'n'], 'g', rfl, rfl⟩
  · exact ⟨['g', 'i'], 'f', rfl, rfl⟩
  · exact ⟨['w', 'e', 'b'], 'p', rfl, rfl⟩
  · exact ⟨['J', 'P'], 'G', rfl, rfl⟩
  · exact ⟨['J', 'P', 'E'], 'G', rfl, rfl⟩
  · exact ⟨['P', 'N'], 'G', rfl, rfl⟩
  · exact ⟨['G', 'I'], 'F', rfl, rfl⟩
  · exact ⟨['W', 'E', 'B'], 'P', rfl, rfl⟩

theorem rstripPunct_eq_self {u e0 : List Char} {lc : Char}
    (hu : u = e0 ++ [lc]) (hlc : PUNCT_CHARS.contains lc = false) : rstripPunct u = u := by
  subst hu
  rw [rstripPunct, List.reverse_append, List.reverse_singleton, List.singleton_append,
    List.dropWhile_cons_of_neg (by rw [hlc]; exact Bool.false_ne_true), List.reverse_cons,
    List.reverse_reverse]

theorem extract_image_urls_sound (content u : List Char)
    (hu : u ∈ extract_image_urls content) : GoodImageUrl u ∧ Occurs u content := by
  rw [extract_image_urls] at hu
  obtain ⟨v, hv, rfl⟩ := List.mem_map.mp hu
  obtain ⟨good, occ⟩ := findImageMatches_sound _ _ v hv
  obtain ⟨scheme, body, ext, hs, hext, hb, hveq, hns⟩ := good
  obtain ⟨e0, lc, hel, hlc⟩ := ext_last_not_punct hext
  have hshape : v = (scheme ++ body ++ '.' :: e0) ++ [lc] := by
    rw [hveq, hel]
    rw [show ('.' :: (e0 ++ [lc])) = ('.' :: e0) ++ [lc] from rfl, ← List.append_assoc]
  have hr : rstripPunct v = v := rstripPunct_eq_self hshape hlc
  rw [hr]
  exact ⟨⟨scheme, body, ext, hs, hext, hb, hveq, hns⟩, occ⟩

theorem handle_publishes_len (o : Oracles) (st : BotState) (e : NEvent) :
    (handle_nostr_event o st e).publishes.length ≤ 1 := by
  rw [handle_nostr_event]
  by_cases h1 : e.id ∈ st.processed
  · rw [if_pos h1]; exact Nat.zero_le 1
  · rw [if_neg h1]
    by_cases h2 : e.created_at < st.start_time
    · rw [if_pos h2]; exact Nat.zero_le 1
    · rw [if_neg h2]
      by_cases h3 : is_reply e = true
      · rw [if_pos h3]; exact Nat.zero_le 1
      · rw [if_neg h3]
        by_cases h4 : pyStrip e.content = []
        · rw [if_pos h4]; exact Nat.zero_le 1
        · rw [if_neg h4]; exact Nat.le_refl 1

/-! ## Concrete fixtures for witnesses and counterexamples -/

/-- A metadata oracle whose lookups always fail. -/
def oracleFail : List Char → MetadataQueryResult := fun _ => .queryFailed

/-- A metadata oracle that always returns a record with display name `Fountain`. -/
def oracleFountain : List Char → MetadataQueryResult :=
  fun _ => .record (some "Fountain".data) none

/-- A metadata oracle that always returns a record with display name `Alice`. -/
def oracleAlice : List Char → MetadataQueryResult :=
  fun _ => .record (some "Alice".data) none

/-- A metadata oracle whose records carry only the `name` field. -/
def oracleNameOnly : List Char → MetadataQueryResult :=
  fun _ => .record none (some "alice".data)

/-- A download oracle returning a small valid PNG-typed response. -/
def goodDownload : List Char → FetchOutcome :=
  fun _ => .response ⟨true, "image/png".data, [1, 2, 3], true⟩

/-- Bluesky oracles for which every candidate succeeds. -/
def bskyGood : BskyOracles := ⟨goodDownload, fun _ => some 7, true⟩

/-- Full oracles for which everything succeeds. -/
def oraclesGood : Oracles := ⟨oracleFountain, goodDownload, fun _ => some 7, true⟩

/-- Full oracles whose publish call fails. -/
def oraclesPubFail : Oracles := ⟨oracleFail, fun _ => .networkError, fun _ => none, false⟩

/-- A small event fixture. -/
def evA : NEvent := ⟨"ff01".data, 100, [], "hello".data⟩

/-- An event created before the cutoff of the states used below. -/
def evOld : NEvent := ⟨"aa02".data, 10, [], "hi".data⟩

/-! ## Claims -/

/-- C1: an event whose identifier is already in the processed set is skipped
as a duplicate before any later step runs (no lookup, no fetch, no publish,
state unchanged); and for two deliveries of the same event within one run
(with any events in between), the second delivery performs no mention
resolution, no media work, and no publish call.  (A Nostr event id is a hash
of the event, so two deliveries with the same identifier are deliveries of
the same event.) -/
theorem claim_C1 (o : Oracles) (st : BotState) (e : NEvent) :
    (e.id ∈ st.processed →
      handle_nostr_event o st e = skipOutcome st .skippedDuplicate) ∧
    ∀ mid : List NEvent,
      (handle_nostr_event o (runEvents o (handle_nostr_event o st e).state mid) e).lookups
          = [] ∧
      (handle_nostr_event o (runEvents o (handle_nostr_event o st e).state mid) e).fetched
          = [] ∧
      (handle_nostr_event o (runEvents o (handle_nostr_event o st e).state mid) e).publishes
          = [] := by
  constructor
  · exact handle_dup o st e
  · intro mid
    by_cases h1 : e.id ∈ st.processed
    · have h2 : e.id ∈ (runEvents o (handle_nostr_event o st e).state mid).processed :=
        runEvents_mono o mid _ _ (handle_processed_mono o st e h1)
      rw [handle_dup o _ e h2]
      exact ⟨rfl, rfl, rfl⟩
    · by_cases h2 : e.created_at < st.start_time
      · by_cases h3 : e.id ∈ (runEvents o (handle_nostr_event o st e).state mid).processed
        · rw [handle_dup o _ e h3]
          exact ⟨rfl, rfl, rfl⟩
        · have h4 : (runEvents o (handle_nostr_event o st e).state mid).start_time
              = st.start_time := by
            rw [runEvents_start_time, handle_start_time]
          rw [handle_tooOld o _ e h3 (by rw [h4]; exact h2)]
          exact ⟨rfl, rfl, rfl⟩
      · have h3 : e.id ∈ (runEvents o (handle_nostr_event o st e).state mid).processed := by
          refine runEvents_mono o mid _ _ ?_
          rw [handle_marks o st e h1 h2]
          exact List.mem_cons_self _ _
        rw [handle_dup o _ e h3]
        exact ⟨rfl, rfl, rfl⟩

theorem claim_C1_witness :
    handle_nostr_event oraclesGood ⟨["ff01".data], 50⟩ evA
        = skipOutcome ⟨["ff01".data], 50⟩ .skippedDuplicate ∧
    (handle_nostr_event oraclesGood
        (runEvents oraclesGood (handle_nostr_event oraclesGood ⟨[], 50⟩ evA).state []) evA
      ).publishes = [] := by
  exact ⟨(claim_C1 oraclesGood ⟨["ff01".data], 50⟩ evA).1 (by decide),
    ((claim_C1 oraclesGood ⟨[], 50⟩ evA).2 []).2.2⟩

/-- C2: an event older than the cutoff is skipped as too old before the
mark-processed step (when it is not also a duplicate, the exit taken is
exactly `Skipped(too_old)`); in every case an old event triggers no publish
call and leaves the state unchanged, so the dedup set only ever acquires
identifiers of events created at or after the cutoff. -/
theorem claim_C2 (o : Oracles) (st : BotState) (e : NEvent) :
    (e.created_at < st.start_time → e.id ∉ st.processed →
      handle_nostr_event o st e = skipOutcome st .skippedTooOld) ∧
    (e.created_at < st.start_time →
      (handle_nostr_event o st e).publishes = [] ∧
      (handle_nostr_event o st e).state = st) ∧
    ∀ (evs : List NEvent) (x : List Char), x ∈ (runEvents o st evs).processed →
      x ∈ st.processed ∨ ∃ e2, e2 ∈ evs ∧ e2.id = x ∧ st.start_time ≤ e2.created_at := by
  refine ⟨fun h2 h1 => handle_tooOld o st e h1 h2, fun h2 => ?_,
    fun evs x => runEvents_mem o evs st x⟩
  by_cases h1 : e.id ∈ st.processed
  · rw [handle_dup o st e h1]
    exact ⟨rfl, rfl⟩
  · rw [handle_tooOld o st e h1 h2]
    exact ⟨rfl, rfl⟩

theorem claim_C2_witness :
    handle_nostr_event oraclesGood ⟨[], 50⟩ evOld = skipOutcome ⟨[], 50⟩ .skippedTooOld ∧
    (handle_nostr_event oraclesGood ⟨[], 50⟩ evOld).state = ⟨[], 50⟩ := by
  have h := claim_C2 oraclesGood ⟨[], 50⟩ evOld
  exact ⟨h.1 (by decide) (by decide), (h.2.1 (by decide)).2⟩

/-- C3: an event that passes the dedup and age gates has its identifier added
to the processed set; at most one publish call is ever made for it (no
retry); when it reaches the publish step and the publish call fails, the
result is `PublishFailed` with exactly one publish call, the identifier stays
in the processed set, and any later delivery of the same event in the run is
skipped as a duplicate. -/
theorem claim_C3 (o : Oracles) (st : BotState) (e : NEvent)
    (h1 : e.id ∉ st.processed) (h2 : st.start_time ≤ e.created_at) :
    e.id ∈ (handle_nostr_event o st e).state.processed ∧
    (handle_nostr_event o st e).publishes.length ≤ 1 ∧
    (is_reply e = false → pyStrip e.content ≠ [] → o.publishOk = false →
      (handle_nostr_event o st e).result = .publishFailed ∧
      (handle_nostr_event o st e).publishes.length = 1 ∧
      e.id ∈ (handle_nostr_event o st e).state.processed) ∧
    ∀ mid : List NEvent,
      handle_nostr_event o (runEvents o (handle_nostr_event o st e).state mid) e
        = skipOutcome (runEvents o (handle_nostr_event o st e).state mid)
            .skippedDuplicate := by
  have h2' : ¬ e.created_at < st.start_time := Nat.not_lt.mpr h2
  have hmark := handle_marks o st e h1 h2'
  have hmem : e.id ∈ (handle_nostr_event o st e).state.processed := by
    rw [hmark]
    exact List.mem_cons_self _ _
  refine ⟨hmem, handle_publishes_len o st e, ?_, ?_⟩
  · intro h3 h4 h5
    rw [handle_go o st e h1 h2' h3 h4]
    refine ⟨?_, rfl, List.mem_cons_self _ _⟩
    have hres : (post_to_bluesky (bskyOf o) (replaceMentionsTrace o.metadata e.content).1
        (extract_image_urls (replaceMentionsTrace o.metadata e.content).1)).result
          = false := by
      rw [post_result]
      exact h5
    show (if (post_to_bluesky (bskyOf o) (replaceMentionsTrace o.metadata e.content).1
        (extract_image_urls (replaceMentionsTrace o.metadata e.content).1)).result = true
      then HandleResult.published else .publishFailed) = .publishFailed
    rw [hres]
    simp
  · intro mid
    exact handle_dup o _ e (runEvents_mono o mid _ _ hmem)

theorem claim_C3_witness :
    "ff01".data ∈ (handle_nostr_event oraclesPubFail ⟨[], 50⟩ evA).state.processed ∧
    (handle_nostr_event oraclesPubFail ⟨[], 50⟩ evA).result = .publishFailed := by
  have h := claim_C3 oraclesPubFail ⟨[], 50⟩ evA (by decide) (by decide)
  exact ⟨h.1, (h.2.2.1 (by decide) (by decide) rfl).1⟩

/-- C4 counterexample: on the text `nostr:nostr:npub1q`, whose only matched
token is `npub1q`, a failed lookup replaces the occurrence of
`nostr:npub1q` by the bare token — and thereby rebuilds the string
`nostr:npub1q` out of the leading `nostr:` and the inserted bare token, so
the output does contain a matched scheme-prefixed token, contradicting the
claim's "the output never contains a matched scheme-prefixed token". -/
theorem claim_C4_counterexample :
    extract_npub_mentions "nostr:nostr:npub1q".data = ["npub1q".data] ∧
    replace_npub_mentions oracleFail "nostr:nostr:npub1q".data = "nostr:npub1q".data ∧
    Occurs ("nostr:".data ++ "npub1q".data)
      (replace_npub_mentions oracleFail "nostr:nostr:npub1q".data) := by
  refine ⟨by decide, by decide, ⟨[], [], by decide⟩⟩

/-- C4 (amended): for every text, exactly one metadata lookup is issued per
unique matched token (the lookup trace is duplicate-free and consists exactly
of the matched tokens); when the text has a single unique matched token `t`,
the output is the input with every occurrence of `nostr:t` replaced by the
resolved display name (on success) or the bare token (on failure); and the
output contains no occurrence of `nostr:t` provided the replacement string is
non-empty, its first character does not occur in `nostr:t`, `nostr:t` does
not occur inside it, and none of its proper non-empty suffixes begins
`nostr:t` (conditions a display name such as `Alice` satisfies; a display
name ending in `n` — a prefix of `nostr:` — can recreate a token against
following text, and the bare-token fallback violates them, as the
counterexample shows). -/
theorem claim_C4_amended (lookup : List Char → MetadataQueryResult) (content : List Char) :
    (replaceMentionsTrace lookup content).2.Nodup ∧
    (∀ t, t ∈ (replaceMentionsTrace lookup content).2 ↔
      t ∈ extract_npub_mentions content) ∧
    ∀ t, (extract_npub_mentions content).dedup = [t] →
      (replace_npub_mentions lookup content
          = pyReplace ("nostr:".data ++ t) (resolveToken lookup t) content) ∧
      ∀ r, r = resolveToken lookup t → r ≠ [] → r.headI ∉ ("nostr:".data ++ t) →
        occursB ("nostr:".data ++ t) r = false →
        suffixSafe r ("nostr:".data ++ t) = true →
        ¬ Occurs ("nostr:".data ++ t) (replace_npub_mentions lookup content) := by
  refine ⟨?_, ?_, ?_⟩
  · rw [replaceMentionsTrace_snd]
    exact List.nodup_dedup _
  · intro t
    rw [replaceMentionsTrace_snd]
    exact List.mem_dedup
  · intro t ht
    have heq := replace_single_token lookup content t ht
    refine ⟨heq, ?_⟩
    rintro r rfl hr hhead hro hsuf
    rw [heq]
    exact pyReplace_no_occurs _ _ _ (by simp) hr hhead hro hsuf

theorem claim_C4_witness :
    replace_npub_mentions oracleAlice "hi nostr:npub1xxzz".data = "hi Alice".data ∧
    ¬ Occurs ("nostr:".data ++ "npub1xxzz".data)
        (replace_npub_mentions oracleAlice "hi nostr:npub1xxzz".data) := by
  have h := claim_C4_amended oracleAlice "hi nostr:npub1xxzz".data
  have h3 := h.2.2 "npub1xxzz".data (by decide)
  exact ⟨by rw [h3.1]; decide,
    h3.2 _ rfl (by decide) (by decide) (by decide) (by decide)⟩

/-- C5 counterexample: the claim says extensions are matched
case-insensitively, so `.Png` would be matched; but the regex alternation
lists only all-lowercase and all-uppercase spellings, and on a text
containing `https://ex.com/a.Png` the extractor returns nothing. -/
theorem claim_C5_counterexample :
    extract_image_urls "see https://ex.com/a.Png now".data = [] := by
  decide

/-- C5 (amended): every url `find_images` returns is a substring of the text
consisting of `http://` or `https://`, a non-empty whitespace-free body, and
a dot followed by one of the ten all-lowercase or all-uppercase extension
spellings (mixed-case spellings such as `.Png` are not matched); trailing
sentence punctuation is trimmed from each match (every match already ends in
an extension letter, so the trim never changes a match), as the concrete
round trips show. -/
theorem claim_C5_amended :
    (∀ content u, u ∈ extract_image_urls content → GoodImageUrl u ∧ Occurs u content) ∧
    extract_image_urls "look at https://ex.com/a.png!".data
      = ["https://ex.com/a.png".data] ∧
    extract_image_urls "see https://ex.com/a.PNG now".data
      = ["https://ex.com/a.PNG".data] := by
  exact ⟨extract_image_urls_sound, by decide, by decide⟩

theorem claim_C5_witness :
    GoodImageUrl "https://ex.com/a.png".data ∧
    Occurs "https://ex.com/a.png".data "look at https://ex.com/a.png!".data := by
  exact claim_C5_amended.1 "look at https://ex.com/a.png!".data
    "https://ex.com/a.png".data (by decide)

/-- C6: `download_image` yields a candidate exactly when the HTTP status is
good, the content type starts with `image/`, the payload is at most 10 MiB,
and the payload decodes as an image; a network error yields none, a
`text/html` response is rejected regardless of size, an oversized response is
rejected regardless of type, and a url whose fetch fails never appears among
the attached urls while the publish call still happens. -/
theorem claim_C6 :
    (∀ r : HttpResponse,
      download_image (.response r) = some (r.content, r.contentType) ↔
        (r.statusOk = true ∧ beginsWith "image/".data r.contentType = true ∧
         r.content.length ≤ MAX_IMAGE_BYTES ∧ r.decodesAsImage = true)) ∧
    download_image .networkError = none ∧
    (∀ r : HttpResponse, r.contentType = "text/html".data →
      download_image (.response r) = none) ∧
    (∀ r : HttpResponse, r.content.length > MAX_IMAGE_BYTES →
      download_image (.response r) = none) ∧
    ∀ (o : BskyOracles) (content : List Char) (urls : List (List Char)) (u : List Char),
      download_image (o.download u) = none →
        u ∉ (post_to_bluesky o content urls).attachedUrls ∧
        (post_to_bluesky o content urls).result = o.publishOk := by
  refine ⟨?_, rfl, ?_, ?_, ?_⟩
  · intro r
    rw [download_image]
    by_cases h1 : r.statusOk = true <;>
      by_cases h2 : beginsWith "image/".data r.contentType = true <;>
        by_cases h3 : r.content.length > MAX_IMAGE_BYTES <;>
          by_cases h4 : r.decodesAsImage = true <;>
            (simp [h1, h2, h3, h4]; try omega)
  · intro r h
    rw [download_image, h]
    have hit : beginsWith "image/".data "text/html".data = false := by decide
    by_cases h1 : r.statusOk = true
    · simp [h1, hit]
    · simp [h1]
  · intro r h
    rw [download_image]
    by_cases h1 : r.statusOk = true <;>
      by_cases h2 : beginsWith "image/".data r.contentType = true <;>
        simp [h1, h2, h]
  · intro o content urls u hd
    refine ⟨?_, post_result o content urls⟩
    rw [post_attached]
    intro hmem
    have hok := (List.mem_filter.mp hmem).2
    rw [candidateOk, hd] at hok
    cases hok

theorem claim_C6_witness :
    download_image (.response ⟨true, "image/png".data, [1, 2, 3], true⟩)
        = some ([1, 2, 3], "image/png".data) ∧
    download_image (.response ⟨true, "text/html".data, [1], true⟩) = none ∧
    "u1".data ∉ (post_to_bluesky ⟨fun _ => .networkError, fun _ => none, true⟩
        "t".data ["u1".data]).attachedUrls := by
  refine ⟨(claim_C6.1 ⟨true, "image/png".data, [1, 2, 3], true⟩).mpr
      ⟨rfl, by decide, by decide, rfl⟩,
    claim_C6.2.2.1 ⟨true, "text/html".data, [1], true⟩ rfl,
    (claim_C6.2.2.2.2 ⟨fun _ => .networkError, fun _ => none, true⟩
      "t".data ["u1".data] "u1".data rfl).1⟩

/-- C7: the urls passed to the image fetch are exactly the first four entries
of the extracted list, in order (entries beyond the fourth are never
fetched); the attached urls are exactly the fetched ones whose
fetch→validate→upload pipeline succeeded, in order; in particular when every
url succeeds, exactly the first four are attached. -/
theorem claim_C7 (o : BskyOracles) (content : List Char) (urls : List (List Char)) :
    (post_to_bluesky o content urls).fetched = urls.take 4 ∧
    (post_to_bluesky o content urls).attachedUrls
      = (urls.take 4).filter (fun u => candidateOk o u) ∧
    ((∀ u ∈ urls, candidateOk o u = true) →
      (post_to_bluesky o content urls).attachedUrls = urls.take 4) := by
  refine ⟨post_fetched o content urls, post_attached o content urls, fun hall => ?_⟩
  rw [post_attached]
  refine List.filter_eq_self.mpr ?_
  intro u hu
  exact hall u (List.take_subset 4 urls hu)

/-- Six individually valid urls for the C7 witness. -/
def sixUrls : List (List Char) :=
  ["https://e.com/1.png", "https://e.com/2.png", "https://e.com/3.png",
   "https://e.com/4.png", "https://e.com/5.png", "https://e.com/6.png"].map String.data

theorem claim_C7_witness :
    (post_to_bluesky bskyGood "x".data sixUrls).fetched
      = ["https://e.com/1.png".data, "https://e.com/2.png".data,
         "https://e.com/3.png".data, "https://e.com/4.png".data] ∧
    (post_to_bluesky bskyGood "x".data sixUrls).attachedUrls
      = ["https://e.com/1.png".data, "https://e.com/2.png".data,
         "https://e.com/3.png".data, "https://e.com/4.png".data] := by
  have h := claim_C7 bskyGood "x".data sixUrls
  refine ⟨by rw [h.1]; decide, by rw [h.2.2 (by decide)]; decide⟩

/-- C8: the published post body is the input content when no url was
successfully attached (no stripping or whitespace normalisation is applied in
that case), and otherwise it is `remove_image_urls` applied to exactly the
successfully attached urls; at the pipeline level the content fed to the
publish step is the mention-resolved text; and the spec's concrete stripping
round trip holds. -/
theorem claim_C8 :
    (∀ (o : BskyOracles) (content : List Char) (urls : List (List Char)),
      (post_to_bluesky o content urls).attachedUrls = [] →
        (post_to_bluesky o content urls).publishedText = content) ∧
    (∀ (o : BskyOracles) (content : List Char) (urls : List (List Char)),
      (post_to_bluesky o content urls).attachedUrls ≠ [] →
        (post_to_bluesky o content urls).publishedText
          = remove_image_urls content ((urls.take 4).filter fun u => candidateOk o u)) ∧
    (∀ (o : Oracles) (st : BotState) (e : NEvent),
      e.id ∉ st.processed → ¬ e.created_at < st.start_time →
      is_reply e = false → pyStrip e.content ≠ [] →
        (handle_nostr_event o st e).publishes
          = [(post_to_bluesky (bskyOf o) (replace_npub_mentions o.metadata e.content)
              (extract_image_urls (replace_npub_mentions o.metadata e.content))
            ).publishedText]) ∧
    remove_image_urls "look at https://ex.com/a.png!".data ["https://ex.com/a.png".data]
      = "look at".data := by
  refine ⟨?_, ?_, ?_, by decide⟩
  · intro o content urls h
    rw [post_attached] at h
    rw [post_text, h]
    simp
  · intro o content urls h
    rw [post_attached] at h
    rw [post_text, if_pos h]
  · intro o st e h1 h2 h3 h4
    rw [handle_go o st e h1 h2 h3 h4]
    rfl

theorem claim_C8_witness :
    (post_to_bluesky ⟨fun _ => .networkError, fun _ => none, true⟩
        "a https://x.png b".data ["https://x.png".data]).publishedText
      = "a https://x.png b".data ∧
    (post_to_bluesky bskyGood "a https://x.png b".data
        ["https://x.png".data]).publishedText = "a b".data := by
  constructor
  · exact claim_C8.1 ⟨fun _ => .networkError, fun _ => none, true⟩
      "a https://x.png b".data ["https://x.png".data] (by decide)
  · rw [claim_C8.2.1 bskyGood "a https://x.png b".data ["https://x.png".data] (by decide)]
    decide

/-- C9 counterexample: in the text `https://a.pnghttps://a.png` the url
`https://a.png` literally occurs twice (the text is the url concatenated with
itself), but extraction returns a single entry — the one maximal regex match
spanning the whole text — not two entries equal to the url.  So "k literal
occurrences yield k separate entries" fails. -/
theorem claim_C9_counterexample :
    "https://a.pnghttps://a.png".data
        = "https://a.png".data ++ "https://a.png".data ∧
    extract_image_urls "https://a.pnghttps://a.png".data
      = ["https://a.pnghttps://a.png".data] := by
  exact ⟨by decide, by decide⟩

/-- C9 (amended): duplicate matches are not coalesced when the occurrences
are separate matches (e.g. whitespace-separated): extraction of a text
consisting of the same url twice with a space between yields two identical
entries; and the posting loop treats each entry of the url list
independently, so a duplicated valid url is attached twice, each occupying
one of the four slots (five copies of a valid url attach exactly four). -/
theorem claim_C9_amended :
    extract_image_urls "https://a.png https://a.png".data
      = ["https://a.png".data, "https://a.png".data] ∧
    (∀ (o : BskyOracles) (content u : List Char), candidateOk o u = true →
      (post_to_bluesky o content [u, u]).attachedUrls = [u, u] ∧
      (post_to_bluesky o content [u, u]).images.length = 2) ∧
    ∀ (o : BskyOracles) (content u : List Char), candidateOk o u = true →
      (post_to_bluesky o content [u, u, u, u, u]).attachedUrls = [u, u, u, u] := by
  refine ⟨by decide, ?_, ?_⟩
  · intro o content u h
    have hblob : (blobOf o u).isSome := by
      rw [candidateOk] at h
      rw [blobOf]
      cases hd : download_image (o.download u) with
      | none => rw [hd] at h; cases h
      | some bc =>
        rw [hd] at h
        simpa using h
    obtain ⟨b, hb⟩ := Option.isSome_iff_exists.mp hblob
    constructor
    · rw [post_attached]
      simp [List.take, List.filter, h]
    · rw [post_images]
      simp [List.take, List.filterMap, hb]
  · intro o content u h
    rw [post_attached]
    simp [List.take, List.filter, h]

theorem claim_C9_witness :
    (post_to_bluesky bskyGood "t".data ["https://a.png".data, "https://a.png".data]
      ).attachedUrls = ["https://a.png".data, "https://a.png".data] ∧
    (post_to_bluesky bskyGood "t".data ["https://a.png".data, "https://a.png".data]
      ).images.length = 2 := by
  exact (claim_C9_amended.2.1 bskyGood "t".data "https://a.png".data (by decide))

/-- C10: a metadata record whose `display_name` is absent or empty but whose
`name` is non-empty counts as a success: `fetch_profile_metadata` promotes
the `name` value to the display name (`display_name` is preferred when itself
non-empty), and mention replacement substitutes that value for the token; the
bare-token fallback is used only when both fields are absent or empty. -/
theorem claim_C10 (lookup : List Char → MetadataQueryResult) (t : List Char) :
    (∀ nm : List Char, nm ≠ [] →
      (lookup t = .record none (some nm) ∨ lookup t = .record (some []) (some nm)) →
      fetch_profile_metadata (lookup t) = some (nm, nm) ∧ resolveToken lookup t = nm) ∧
    (∀ (d : List Char) (nm : Option (List Char)), d ≠ [] →
      lookup t = .record (some d) nm → resolveToken lookup t = d) ∧
    (∀ dn nm : Option (List Char), (dn = none ∨ dn = some []) →
      (nm = none ∨ nm = some []) → lookup t = .record dn nm →
      fetch_profile_metadata (lookup t) = none ∧ resolveToken lookup t = t) ∧
    ∀ content : List Char, (extract_npub_mentions content).dedup = [t] →
      replace_npub_mentions lookup content
        = pyReplace ("nostr:".data ++ t) (resolveToken lookup t) content := by
  refine ⟨?_, ?_, ?_, fun content h => replace_single_token lookup content t h⟩
  · intro nm hnm hrec
    rcases hrec with h | h <;>
      · rw [resolveToken, h, fetch_profile_metadata]
        simp [pyOrStr, hnm]
  · intro d nm hd hrec
    rw [resolveToken, hrec, fetch_profile_metadata]
    simp [pyOrStr, hd]
  · intro dn nm hdn hnm hrec
    rw [resolveToken, hrec, fetch_profile_metadata]
    rcases hdn with rfl | rfl <;> rcases hnm with rfl | rfl <;> simp [pyOrStr]

theorem claim_C10_witness :
    fetch_profile_metadata (oracleNameOnly "npub1q".data)
        = some ("alice".data, "alice".data) ∧
    replace_npub_mentions oracleNameOnly "hi nostr:npub1q".data = "hi alice".data := by
  have h := claim_C10 oracleNameOnly "npub1q".data
  constructor
  · exact (h.1 "alice".data (by decide) (Or.inl rfl)).1
  · rw [h.2.2.2 "hi nostr:npub1q".data (by decide)]
    decide

end BlueStr
